import Mathlib

/-!
Verification of the Barnes-Hut N-body simulation core (quadtree build,
bottom-up mass propagation, force query, collision resolution) against its
specification.  The Rust source is shallowly embedded: 32-bit floats are
modelled by exact rationals, the flat node arena by a list of nodes, and
the two unbounded loops of the source (the subdivision loop of insert and
the next-pointer traversal of acc) by fuel-indexed functions returning
an option, none meaning fuel exhaustion.
-/

namespace NB

/-- Two-component vector, mirroring ultraviolet Vec2 with rational scalars. -/
structure Vec2 where
  x : ℚ
  y : ℚ
deriving DecidableEq, Repr

namespace Vec2

/-- Componentwise addition. -/
def add (a b : Vec2) : Vec2 := ⟨a.x + b.x, a.y + b.y⟩

/-- Componentwise subtraction. -/
def sub (a b : Vec2) : Vec2 := ⟨a.x - b.x, a.y - b.y⟩

/-- Multiplication of a vector by a scalar on the right. -/
def mulQ (a : Vec2) (q : ℚ) : Vec2 := ⟨a.x * q, a.y * q⟩

/-- Division of a vector by a scalar, componentwise. -/
def sdiv (a : Vec2) (q : ℚ) : Vec2 := ⟨a.x / q, a.y / q⟩

/-- Dot product. -/
def dot (a b : Vec2) : ℚ := a.x * b.x + a.y * b.y

/-- Squared magnitude, the mag_sq of the source. -/
def magSq (a : Vec2) : ℚ := a.x * a.x + a.y * a.y

instance : Add Vec2 := ⟨add⟩
instance : Sub Vec2 := ⟨sub⟩
instance : Zero Vec2 := ⟨⟨0, 0⟩⟩

end Vec2

/-- Integer square root by bounded linear search; exact on perfect squares,
which are the only inputs the concrete theorems evaluate it at. -/
def sqrtFuel : Nat → Nat → Nat → Nat
  | 0, _, k => k
  | f+1, n, k => if (k+1)*(k+1) ≤ n then sqrtFuel f n (k+1) else k

/-- Integer square root (floor), exact on perfect squares. -/
def natSqrt (n : Nat) : Nat := sqrtFuel n n 0

/-- Rational square root model for the f32 sqrt of the source: exact on
rationals whose numerator and denominator are perfect squares; every
concrete evaluation in this file is of that form. -/
def ratSqrt (q : ℚ) : ℚ := (natSqrt q.num.toNat : ℚ) / (natSqrt q.den : ℚ)

/-- Magnitude of a vector, the mag of the source. -/
def Vec2.mag (a : Vec2) : ℚ := ratSqrt a.magSq

/-- Square spatial region: center and edge length, from quadtree.rs. -/
structure Quad where
  center : Vec2
  size : ℚ
deriving DecidableEq, Repr

namespace Quad

/-- Quadrant index of a position relative to the center:
bit 0 is x greater than center.x, bit 1 is y greater than center.y. -/
def find_quadrant (q : Quad) (pos : Vec2) : Nat :=
  (if pos.y > q.center.y then 2 else 0) + (if pos.x > q.center.x then 1 else 0)

/-- Shrink the quad onto one of its four sub-quadrants: the size is halved
first, then the center shifted by half the new size on each axis. -/
def into_quadrant (q : Quad) (quadrant : Nat) : Quad :=
  let size := q.size * (1/2)
  { center := ⟨q.center.x + (((quadrant % 2 : Nat) : ℚ) - 1/2) * size,
               q.center.y + (((quadrant / 2 : Nat) : ℚ) - 1/2) * size⟩,
    size := size }

end Quad

/-- Arena node of the quadtree; indices are modelled as naturals (the u32
indices of the source never approach the wrap-around in any reachable
state considered here). -/
structure Node where
  children : Nat
  next : Nat
  pos : Vec2
  mass : ℚ
  quad : Quad
  body_index : Nat
deriving DecidableEq, Repr

/-- Sentinel for the body_index of a node holding no body, u32 MAX. -/
def U32MAX : Nat := 4294967295

/-- Fresh empty node, Node::new of the source. -/
def Node.new (next : Nat) (quad : Quad) : Node :=
  { children := 0, next := next, pos := 0, mass := 0, quad := quad,
    body_index := U32MAX }

/-- Quadtree state: squared parameters, flat node arena, recorded parents. -/
structure QT where
  t_sq : ℚ
  e_sq : ℚ
  nodes : List Node
  parents : List Nat
deriving DecidableEq, Repr

namespace QT

/-- Quadtree::new. -/
def new (theta epsilon : ℚ) : QT :=
  { t_sq := theta * theta, e_sq := epsilon * epsilon, nodes := [], parents := [] }

/-- Quadtree::clear — drop everything and push a single empty root. -/
def clear (t : QT) (quad : Quad) : QT :=
  { t with nodes := [Node.new 0 quad], parents := [] }

/-- Quadtree::subdivide — record the parent, allocate four contiguous
children whose next pointers chain child0 to child1 to child2 to child3 to
the parent's next, each with its sub-quad.  Returns the first child index
paired with the updated tree. -/
def subdivide (t : QT) (node : Nat) : Nat × QT :=
  match t.nodes[node]? with
  | none => (0, t)
  | some nd =>
    let ch := t.nodes.length
    let base := t.nodes.set node { nd with children := ch }
    let nodes' := base ++
      [Node.new (ch+1) (nd.quad.into_quadrant 0),
       Node.new (ch+2) (nd.quad.into_quadrant 1),
       Node.new (ch+3) (nd.quad.into_quadrant 2),
       Node.new nd.next (nd.quad.into_quadrant 3)]
    (ch, { t with nodes := nodes', parents := t.parents ++ [node] })

/-- Write the body fields (pos, mass, body_index) of one node, leaving
children, next and quad untouched. -/
def writeBody (t : QT) (n : Nat) (pos : Vec2) (mass : ℚ) (bidx : Nat) : QT :=
  match t.nodes[n]? with
  | none => t
  | some nd =>
    { t with nodes := t.nodes.set n { nd with pos := pos, mass := mass, body_index := bidx } }

/-- Subdivision loop of Quadtree::insert: split the occupied leaf until the
resident body at p and the new body at pos land in different quadrants,
then place each in its child.  Fuel bounds the number of splits; none
models non-termination of the source loop. -/
def splitLoop : Nat → QT → Nat → Vec2 → ℚ → Nat → Vec2 → ℚ → Nat → Option QT
  | 0, _, _, _, _, _, _, _, _ => none
  | fuel+1, t, node, p, m, pidx, pos, mass, bidx =>
    match (t.subdivide node).2.nodes[node]? with
    | none => none
    | some nd =>
      if nd.quad.find_quadrant p = nd.quad.find_quadrant pos then
        splitLoop fuel (t.subdivide node).2
          ((t.subdivide node).1 + nd.quad.find_quadrant p) p m pidx pos mass bidx
      else
        some (((t.subdivide node).2.writeBody
            ((t.subdivide node).1 + nd.quad.find_quadrant p) p m pidx).writeBody
          ((t.subdivide node).1 + nd.quad.find_quadrant pos) pos mass bidx)

/-- Quadtree::insert starting at an arbitrary node: descend to a leaf, then
place, merge, or split.  Fuel bounds both the descent and the split loop. -/
def insertGo : Nat → QT → Vec2 → ℚ → Nat → Nat → Option QT
  | 0, _, _, _, _, _ => none
  | fuel+1, t, pos, mass, bidx, node =>
    match t.nodes[node]? with
    | none => none
    | some nd =>
      if nd.children ≠ 0 then
        insertGo fuel t pos mass bidx (nd.children + nd.quad.find_quadrant pos)
      else if nd.mass = 0 then
        some (t.writeBody node pos mass bidx)
      else if pos = nd.pos then
        some { t with nodes := t.nodes.set node { nd with mass := nd.mass + mass } }
      else
        splitLoop fuel t node nd.pos nd.mass nd.body_index pos mass bidx

/-- Quadtree::insert from the root. -/
def insert (fuel : Nat) (t : QT) (pos : Vec2) (mass : ℚ) (bidx : Nat) : Option QT :=
  insertGo fuel t pos mass bidx 0

/-- Body of the propagate loop for one parent node: overwrite its pos with
the mass-weighted sum of its four children's positions and its mass with
the sum of their masses, then divide pos by the mass when positive. -/
def propagateStep (ns : List Node) (node : Nat) : List Node :=
  match ns[node]? with
  | none => ns
  | some nd =>
    match ns[nd.children]?, ns[nd.children+1]?, ns[nd.children+2]?, ns[nd.children+3]? with
    | some c0, some c1, some c2, some c3 =>
      let w := c0.pos.mulQ c0.mass + c1.pos.mulQ c1.mass + c2.pos.mulQ c2.mass
        + c3.pos.mulQ c3.mass
      let m := c0.mass + c1.mass + c2.mass + c3.mass
      ns.set node { nd with pos := if 0 < m then w.sdiv m else w, mass := m }
    | _, _, _, _ => ns

/-- Quadtree::propagate — fold the step over the parents in reverse
insertion order. -/
def propagate (t : QT) : QT :=
  { t with nodes := t.parents.reverse.foldl propagateStep t.nodes }

/-- Mass floor of the force kernel, the 1e-10 literal of the source. -/
def massFloor : ℚ := 1 / 10000000000

/-- Barnes-Hut acceptance criterion of the force query at a node: the node
is a leaf, or its quad size squared is below the squared distance scaled by
theta squared. -/
def accepts (t : QT) (pos : Vec2) (n : Node) : Prop :=
  n.children = 0 ∨ n.quad.size * n.quad.size < (n.pos - pos).magSq * t.t_sq

instance (t : QT) (pos : Vec2) (n : Node) : Decidable (t.accepts pos n) := by
  unfold accepts; infer_instance

/-- Contribution of an accepted node to the acceleration: the softened
point-mass term when its mass clears the floor, zero otherwise. -/
def accTerm (t : QT) (pos : Vec2) (n : Node) : Vec2 :=
  let d := n.pos - pos
  let d_sq := d.magSq
  if n.mass > massFloor then
    let denom_term := d_sq + t.e_sq
    d.mulQ (n.mass / (denom_term * ratSqrt denom_term))
  else 0

/-- Accumulator update of the acc loop for an accepted node: add the
softened point-mass term when the node's mass clears the floor. -/
def accStep (t : QT) (pos : Vec2) (acc : Vec2) (n : Node) : Vec2 :=
  if n.mass > massFloor then
    let d := n.pos - pos
    let denom_term := d.magSq + t.e_sq
    acc + d.mulQ (n.mass / (denom_term * ratSqrt denom_term))
  else acc

/-- Iterative loop of Quadtree::acc over the next pointers, fuel bounded. -/
def accGo (t : QT) (pos : Vec2) : Nat → Nat → Vec2 → Option Vec2
  | 0, _, _ => none
  | fuel+1, node_idx, acc =>
    match t.nodes[node_idx]? with
    | none => none
    | some n =>
      if t.accepts pos n then
        if n.next = 0 then some (accStep t pos acc n)
        else accGo t pos fuel n.next (accStep t pos acc n)
      else accGo t pos fuel n.children acc

/-- Quadtree::acc — zero on an empty arena, else the traversal from the
root with a zero accumulator. -/
def acc (t : QT) (pos : Vec2) (fuel : Nat) : Option Vec2 :=
  if t.nodes = [] then some 0 else accGo t pos fuel 0 0

/-- Companion of accGo recording the indices of the accepted nodes, in
visit order, instead of accumulating their contributions. -/
def accNodesGo (t : QT) (pos : Vec2) : Nat → Nat → Option (List Nat)
  | 0, _ => none
  | fuel+1, node_idx =>
    match t.nodes[node_idx]? with
    | none => none
    | some n =>
      if t.accepts pos n then
        if n.next = 0 then some [node_idx]
        else (accNodesGo t pos fuel n.next).map (node_idx :: ·)
      else accNodesGo t pos fuel n.children

/-- Accepted-node index list of the traversal of acc. -/
def accNodes (t : QT) (pos : Vec2) (fuel : Nat) : Option (List Nat) :=
  if t.nodes = [] then some [] else accNodesGo t pos fuel 0

/-- Sum of the contributions of a list of node indices. -/
def sumTerms (t : QT) (pos : Vec2) (l : List Nat) : Vec2 :=
  l.foldr (fun i v => (match t.nodes[i]? with
    | some n => t.accTerm pos n
    | none => 0) + v) 0

/-- Iterative loop of Quadtree::find_collisions: AABB overlap drives the
descent, leaves with a valid foreign body index and positive mass are
emitted; the emitted indices are collected in visit order. -/
def findCollisionsGo (t : QT) (body_idx : Nat) (pos : Vec2) (radius : ℚ) :
    Nat → Nat → Option (List Nat)
  | 0, _ => none
  | fuel+1, node_idx =>
    match t.nodes[node_idx]? with
    | none => none
    | some n =>
      let min := pos - ⟨radius, radius⟩
      let max := pos + ⟨radius, radius⟩
      let q_half := n.quad.size * (1/2)
      let q_min := n.quad.center - ⟨q_half, q_half⟩
      let q_max := n.quad.center + ⟨q_half, q_half⟩
      if max.x > q_min.x ∧ min.x < q_max.x ∧ max.y > q_min.y ∧ min.y < q_max.y then
        if n.children = 0 then
          let emitted := if n.mass > 0 ∧ n.body_index ≠ U32MAX ∧ n.body_index ≠ body_idx
            then [n.body_index] else []
          if n.next = 0 then some emitted
          else (findCollisionsGo t body_idx pos radius fuel n.next).map (emitted ++ ·)
        else findCollisionsGo t body_idx pos radius fuel n.children
      else
        if n.next = 0 then some []
        else findCollisionsGo t body_idx pos radius fuel n.next

/-- Quadtree::find_collisions — empty emission on an empty arena, else the
traversal from the root. -/
def find_collisions (t : QT) (body_idx : Nat) (pos : Vec2) (radius : ℚ)
    (fuel : Nat) : Option (List Nat) :=
  if t.nodes = [] then some [] else findCollisionsGo t body_idx pos radius fuel 0

end QT

/-- Per-particle state record, from body.rs. -/
structure Body where
  pos : Vec2
  vel : Vec2
  acc : Vec2
  mass : ℚ
  radius : ℚ
deriving DecidableEq, Repr

/-- Body::new — fresh body with zero acceleration. -/
def Body.new (pos vel : Vec2) (mass radius : ℚ) : Body :=
  { pos := pos, vel := vel, acc := 0, mass := mass, radius := radius }

/-- Body::update — semi-implicit Euler: velocity first, then position from
the updated velocity. -/
def Body.update (dt : ℚ) (b : Body) : Body :=
  let vel := b.vel + b.acc.mulQ dt
  { b with vel := vel, pos := b.pos + vel.mulQ dt }

/-- Apply an update to the body stored at one index, mirroring an indexed
store into the bodies vector; out-of-range indices leave the list alone. -/
def updAt (bs : List Body) (k : Nat) (f : Body → Body) : List Body :=
  match bs[k]? with
  | none => bs
  | some b => bs.set k (f b)

/-- Largest finite f32 value, the f32 MAX sentinel of Quad::new_containing. -/
def f32MAX : ℚ := (2^24 - 1) * 2^104

/-- Quad::new_containing — bounding box of the body positions, centered,
with size the larger box extent. -/
def Quad.new_containing (bodies : List Body) : Quad :=
  let lo : ℚ × ℚ := (f32MAX, f32MAX)
  let hi : ℚ × ℚ := (-f32MAX, -f32MAX)
  let r := bodies.foldl
    (fun (acc : (ℚ × ℚ) × (ℚ × ℚ)) b =>
      ((min acc.1.1 b.pos.x, min acc.1.2 b.pos.y),
       (max acc.2.1 b.pos.x, max acc.2.2 b.pos.y)))
    (lo, hi)
  { center := (Vec2.mk (r.1.1 + r.2.1) (r.1.2 + r.2.2)).mulQ (1/2),
    size := max (r.2.1 - r.1.1) (r.2.2 - r.1.2) }

/-- Impact branch of Simulation::resolve: rewind both bodies by the contact
time, apply the (mildly inelastic, coefficient 3/2) impulse at the rewound
positions, then fast-forward both by the same time. -/
def resolveImpact (bs : List Body) (i j : Nat) : List Body :=
  match bs[i]?, bs[j]? with
  | some b1, some b2 =>
    let d := b2.pos - b1.pos
    let r := b1.radius + b2.radius
    let v1 := b1.vel
    let v2 := b2.vel
    let v := v2 - v1
    let d_dot_v := d.dot v
    let m1 := b1.mass
    let m2 := b2.mass
    let weight1 := m2 / (m1 + m2)
    let weight2 := m1 / (m1 + m2)
    let v_sq := v.magSq
    let d_sq := d.magSq
    let r_sq := r * r
    let t := (d_dot_v + ratSqrt (max (d_dot_v * d_dot_v - v_sq * (d_sq - r_sq)) 0)) / v_sq
    let bs1 := updAt bs i (fun b => { b with pos := b.pos - v1.mulQ t })
    let bs2 := updAt bs1 j (fun b => { b with pos := b.pos - v2.mulQ t })
    match bs2[i]?, bs2[j]? with
    | some b1r, some b2r =>
      let dr := b2r.pos - b1r.pos
      let d_dot_vr := dr.dot v
      let d_sqr := dr.magSq
      let tmp := dr.mulQ (3/2 * d_dot_vr / d_sqr)
      let v1' := v1 + tmp.mulQ weight1
      let v2' := v2 - tmp.mulQ weight2
      let bs3 := updAt bs2 i (fun b => { b with vel := v1' })
      let bs4 := updAt bs3 j (fun b => { b with vel := v2' })
      let bs5 := updAt bs4 i (fun b => { b with pos := b.pos + v1'.mulQ t })
      updAt bs5 j (fun b => { b with pos := b.pos + v2'.mulQ t })
    | _, _ => bs2
  | _, _ => bs

/-- Simulation::resolve — return unchanged when the pair does not overlap;
push apart without impulse when not approaching and not coincident;
otherwise run the impact branch. -/
def resolve (bs : List Body) (i j : Nat) : List Body :=
  match bs[i]?, bs[j]? with
  | some b1, some b2 =>
    let d := b2.pos - b1.pos
    let r := b1.radius + b2.radius
    if d.magSq > r * r then bs
    else
      let v := b2.vel - b1.vel
      let d_dot_v := d.dot v
      let m1 := b1.mass
      let m2 := b2.mass
      let weight1 := m2 / (m1 + m2)
      let weight2 := m1 / (m1 + m2)
      if d_dot_v ≥ 0 ∧ d ≠ 0 then
        let tmp := d.mulQ (r / d.mag - 1)
        let bs1 := updAt bs i (fun b => { b with pos := b.pos - tmp.mulQ weight1 })
        updAt bs1 j (fun b => { b with pos := b.pos + tmp.mulQ weight2 })
      else resolveImpact bs i j
  | _, _ => bs

/-- Simulation state: time step, frame counter, bodies, quadtree. -/
structure Simulation where
  dt : ℚ
  frame : Nat
  bodies : List Body
  quadtree : QT
deriving Repr

/-- Simulation::iterate — map the Euler update over all bodies. -/
def iterate (dt : ℚ) (bs : List Body) : List Body := bs.map (Body.update dt)

/-- Simulation::collide with the broad-phase pair enumeration abstracted as
an explicit pair list (the external library is a black box per the spec):
resolve every reported pair in order. -/
def collide (pairs : List (Nat × Nat)) (bs : List Body) : List Body :=
  pairs.foldl (fun bs p => resolve bs p.1 p.2) bs

/-- Simulation::attract — rebuild the tree from the bodies (clear with the
containing quad, insert each body, propagate), then write each body's
acceleration from the force query. -/
def attract (fuel : Nat) (t : QT) (bs : List Body) : QT × List Body :=
  let t1 := t.clear (Quad.new_containing bs)
  let t2 := (bs.enum.foldl (fun t ib => (QT.insert fuel t ib.2.pos ib.2.mass ib.1).getD t) t1)
  let t3 := t2.propagate
  (t3, bs.map (fun b => { b with acc := (t3.acc b.pos fuel).getD 0 }))

/-- Simulation::step — iterate, collide, attract, and bump the frame. -/
def step (fuel : Nat) (pairs : List (Nat × Nat)) (s : Simulation) : Simulation :=
  let bs1 := iterate s.dt s.bodies
  let bs2 := collide pairs bs1
  let r := attract fuel s.quadtree bs2
  { s with bodies := r.2, quadtree := r.1, frame := s.frame + 1 }

/-- Run a sequence of steps, each with its own broad-phase pair list. -/
def stepN (fuel : Nat) (pss : List (List (Nat × Nat))) (s : Simulation) : Simulation :=
  pss.foldl (fun s ps => step fuel ps s) s

/-! ### Predicates and concrete inputs used by the theorems -/

/-- Membership of a position in the closed square a Quad describes. -/
def inQuad (q : Quad) (p : Vec2) : Prop :=
  q.center.x - q.size * (1/2) ≤ p.x ∧ p.x ≤ q.center.x + q.size * (1/2) ∧
  q.center.y - q.size * (1/2) ≤ p.y ∧ p.y ≤ q.center.y + q.size * (1/2)

/-- Chebyshev separation of two positions. -/
def sep (p q : Vec2) : ℚ := max |p.x - q.x| |p.y - q.y|

/-- Termination of insert from a given start node, as an existential over
the fuel of the embedding. -/
def insertTerminatesFrom (t : QT) (pos : Vec2) (mass : ℚ) (bidx : Nat) : Prop :=
  ∃ fuel t', QT.insert fuel t pos mass bidx = some t'

/-- Ordering discipline of the recorded parents, read back to front (the
head is the most recent subdivision): each recorded parent is a branch
whose four children are in bounds and are neither itself nor any
earlier-recorded parent.  Reverse iteration therefore meets every branch
after all of its recorded children. -/
def OkR (ns : List Node) : List Nat → Prop
  | [] => True
  | p :: rest => p ∉ rest ∧
      (∃ nd, ns[p]? = some nd ∧ nd.children ≠ 0 ∧ nd.children + 3 < ns.length ∧
        ∀ k, k < 4 → nd.children + k ∉ (p :: rest)) ∧
      OkR ns rest

/-- Arena invariants maintained by clear and insert. -/
structure WF (t : QT) : Prop where
  nonempty : t.nodes ≠ []
  rootNext : ∀ (nd : Node), t.nodes[0]? = some nd → nd.next = 0
  branchBounds : ∀ (n : Nat) (nd : Node), t.nodes[n]? = some nd → nd.children ≠ 0 →
    n < nd.children ∧ nd.children + 3 < t.nodes.length
  nextChain : ∀ (n : Nat) (nd : Node), t.nodes[n]? = some nd → nd.children ≠ 0 →
    ∃ c0 c1 c2 c3 : Node,
      t.nodes[nd.children]? = some c0 ∧ t.nodes[nd.children+1]? = some c1 ∧
      t.nodes[nd.children+2]? = some c2 ∧ t.nodes[nd.children+3]? = some c3 ∧
      c0.next = nd.children+1 ∧ c1.next = nd.children+2 ∧
      c2.next = nd.children+3 ∧ c3.next = nd.next
  branchInParents : ∀ (n : Nat) (nd : Node), t.nodes[n]? = some nd → nd.children ≠ 0 →
    n ∈ t.parents
  parentsLt : ∀ p ∈ t.parents, p < t.nodes.length
  okr : OkR t.nodes t.parents.reverse

/-- Tree states reachable by clear followed by any sequence of successful
inserts. -/
inductive Reachable : QT → Prop where
  | clear : ∀ (theta epsilon : ℚ) (quad : Quad),
      Reachable ((QT.new theta epsilon).clear quad)
  | insert : ∀ (t t' : QT) (fuel : Nat) (pos : Vec2) (mass : ℚ) (bidx : Nat),
      Reachable t → QT.insert fuel t pos mass bidx = some t' → Reachable t'

/-- Occupied leaf holding the merged body of the C6 scenario. -/
def mergedLeaf (q : Quad) (m : ℚ) : Node :=
  { children := 0, next := 0, pos := ⟨2,3⟩, mass := m, quad := q, body_index := 0 }

/-- C8 counterexample input: two coincident unit bodies, the second moving. -/
def c8bs : List Body :=
  [{ pos := ⟨0,0⟩, vel := ⟨0,0⟩, acc := ⟨0,0⟩, mass := 1, radius := 1 },
   { pos := ⟨0,0⟩, vel := ⟨1,0⟩, acc := ⟨0,0⟩, mass := 1, radius := 1 }]

/-- C9 input: overlapping, static pair at distance 3/2 with radii 1. -/
def c9bs : List Body := [Body.new ⟨0,0⟩ ⟨0,0⟩ 1 1, Body.new ⟨3/2,0⟩ ⟨0,0⟩ 1 1]

/-- Occupied leaf used by the C5 witness. -/
def leafW : Node :=
  { children := 0, next := 0, pos := ⟨1,1⟩, mass := 1, quad := ⟨⟨0,0⟩, 4⟩,
    body_index := 5 }

/-- One-leaf tree used by the C5 witness. -/
def tW2 : QT := { t_sq := 1, e_sq := 1, nodes := [leafW], parents := [] }

/-- Root leaf of the C5 counterexample tree: a body at (1,0) in a unit
root quad centered at the origin. -/
def rootA : Node :=
  { children := 0, next := 0, pos := ⟨1,0⟩, mass := 1, quad := ⟨⟨0,0⟩, 1⟩,
    body_index := 0 }

/-- C5 counterexample tree: cleared tree holding one body at (1,0). -/
def tA : QT := { t_sq := 1, e_sq := 1, nodes := [rootA], parents := [] }

/-- One-body tree reached after clearing with a quad of size 4 at the
origin and inserting a unit body at (1,1). -/
def t1tree : QT :=
  ⟨1, 1, [⟨0, 0, ⟨1,1⟩, 1, ⟨⟨0,0⟩, 4⟩, 0⟩], []⟩

/-- Two-body tree reached from t1tree by inserting a body at (-1,-1):
the root is subdivided once, the resident body lands in quadrant 3 and
the new body in quadrant 0. -/
def t5 : QT :=
  ⟨1, 1,
    [⟨1, 0, ⟨1,1⟩, 1, ⟨⟨0,0⟩, 4⟩, 0⟩,
     ⟨0, 2, ⟨-1,-1⟩, 4, ⟨⟨-1,-1⟩, 2⟩, 1⟩,
     Node.new 3 ⟨⟨1,-1⟩, 2⟩,
     Node.new 4 ⟨⟨-1,1⟩, 2⟩,
     ⟨0, 0, ⟨1,1⟩, 1, ⟨⟨1,1⟩, 2⟩, 0⟩],
    [0]⟩

/-- Propagated root of the concrete two-body tree: total mass 5, centroid
at (-3/5, -3/5). -/
def rootP : Node := ⟨1, 0, ⟨-3/5, -3/5⟩, 5, ⟨⟨0,0⟩, 4⟩, 0⟩

/-! ### Vector and quadrant basics -/

theorem Vec2.add_def (a b : Vec2) : a + b = ⟨a.x + b.x, a.y + b.y⟩ := rfl

theorem Vec2.sub_def (a b : Vec2) : a - b = ⟨a.x - b.x, a.y - b.y⟩ := rfl

theorem Vec2.zero_def : (0 : Vec2) = ⟨0, 0⟩ := rfl

theorem Vec2.add_zero' (a : Vec2) : a + 0 = a := by
  cases a; simp [Vec2.add_def, Vec2.zero_def]

theorem Vec2.zero_add' (a : Vec2) : (0 : Vec2) + a = a := by
  cases a; simp [Vec2.add_def, Vec2.zero_def]

theorem Vec2.add_assoc' (a b c : Vec2) : a + b + c = a + (b + c) := by
  cases a; cases b; cases c; simp [Vec2.add_def]; constructor <;> ring

theorem Quad.find_quadrant_lt (q : Quad) (pos : Vec2) : q.find_quadrant pos < 4 := by
  unfold Quad.find_quadrant
  split <;> split <;> omega

/-! ### Mass conservation (claim C3) -/

theorem list_set_same {α : Type} : ∀ (l : List α) (k : Nat) (a : α),
    l[k]? = some a → l.set k a = l
  | [], k, a => by simp
  | b :: l, 0, a => by intro h; simp at h; simp [h]
  | b :: l, k+1, a => by
    intro h
    simp only [List.getElem?_cons_succ] at h
    simp [list_set_same l k a h]

theorem map_map_mass (f : Body → Body) (hf : ∀ b, (f b).mass = b.mass) :
    ∀ bs : List Body, (bs.map f).map Body.mass = bs.map Body.mass
  | [] => rfl
  | b :: bs => by simp [hf, map_map_mass f hf bs]

theorem updAt_map_mass (bs : List Body) (k : Nat) (f : Body → Body)
    (hf : ∀ b, (f b).mass = b.mass) :
    (updAt bs k f).map Body.mass = bs.map Body.mass := by
  unfold updAt
  cases h : bs[k]? with
  | none => rfl
  | some b =>
    have hk : (bs.map Body.mass)[k]? = some b.mass := by
      simp [List.getElem?_map, h]
    calc (bs.set k (f b)).map Body.mass
        = (bs.map Body.mass).set k ((f b).mass) := by
          simp [List.map_set]
      _ = (bs.map Body.mass).set k b.mass := by rw [hf]
      _ = bs.map Body.mass := list_set_same _ _ _ hk

theorem resolveImpact_map_mass (bs : List Body) (i j : Nat) :
    (resolveImpact bs i j).map Body.mass = bs.map Body.mass := by
  unfold resolveImpact
  cases h1 : bs[i]? <;> cases h2 : bs[j]? <;> simp only
  case some.some b1 b2 =>
    split
    · simp [updAt_map_mass]
    · simp [updAt_map_mass]

theorem resolve_map_mass (bs : List Body) (i j : Nat) :
    (resolve bs i j).map Body.mass = bs.map Body.mass := by
  unfold resolve
  cases h1 : bs[i]? <;> cases h2 : bs[j]? <;> simp only
  case some.some b1 b2 =>
    split
    · rfl
    · split
      · simp [updAt_map_mass]
      · exact resolveImpact_map_mass bs i j

theorem collide_map_mass (pairs : List (Nat × Nat)) (bs : List Body) :
    (collide pairs bs).map Body.mass = bs.map Body.mass := by
  unfold collide
  induction pairs generalizing bs with
  | nil => rfl
  | cons p ps ih => simpa [List.foldl_cons, resolve_map_mass] using ih (resolve bs p.1 p.2)

theorem iterate_map_mass (dt : ℚ) (bs : List Body) :
    (iterate dt bs).map Body.mass = bs.map Body.mass := by
  unfold iterate
  apply map_map_mass
  intro b
  rfl

theorem attract_map_mass (fuel : Nat) (t : QT) (bs : List Body) :
    (attract fuel t bs).2.map Body.mass = bs.map Body.mass := by
  unfold attract
  dsimp only
  apply map_map_mass
  intro b
  rfl

theorem step_map_mass (fuel : Nat) (pairs : List (Nat × Nat)) (s : Simulation) :
    (step fuel pairs s).bodies.map Body.mass = s.bodies.map Body.mass := by
  unfold step
  simp only
  rw [attract_map_mass, collide_map_mass, iterate_map_mass]

/-- C3: across any number of step calls, each body's mass (hence the list
of all body masses, hence their sum) is unchanged: iterate writes only
velocity and position, resolve writes only positions and velocities, and
attract writes only accelerations, so no phase of step ever writes mass. -/
theorem c3_mass_conserved (fuel : Nat) (pss : List (List (Nat × Nat))) (s : Simulation) :
    (stepN fuel pss s).bodies.map Body.mass = s.bodies.map Body.mass := by
  unfold stepN
  induction pss generalizing s with
  | nil => rfl
  | cons ps pss ih => simpa [List.foldl_cons, step_map_mass] using ih (step fuel ps s)

/-! ### Collision resolver claims (C7, C8, C9) -/

theorem Vec2.sub_self (a : Vec2) : a - a = 0 := by
  cases a; simp [Vec2.sub_def, Vec2.zero_def]

theorem Vec2.magSq_zero : (0 : Vec2).magSq = 0 := by
  simp [Vec2.magSq, Vec2.zero_def]

theorem Vec2.mk_eq_zero (a b : ℚ) : (Vec2.mk a b = 0) ↔ (a = 0 ∧ b = 0) := by
  rw [Vec2.zero_def, Vec2.mk.injEq]

/-- C7: resolve on a non-overlapping pair (squared distance above the sum
of radii squared) returns the body list entirely unchanged. -/
theorem c7_resolve_nonoverlap (bs : List Body) (i j : Nat) (b1 b2 : Body)
    (_hij : i ≠ j) (h1 : bs[i]? = some b1) (h2 : bs[j]? = some b2)
    (h : (b2.pos - b1.pos).magSq > (b1.radius + b2.radius) * (b1.radius + b2.radius)) :
    resolve bs i j = bs := by
  unfold resolve
  rw [h1, h2]
  simp only [if_pos h]

/-- C7 witness: two unit bodies ten units apart are left unchanged. -/
theorem c7_witness :
    resolve [Body.new ⟨0,0⟩ ⟨0,0⟩ 1 1, Body.new ⟨10,0⟩ ⟨0,0⟩ 1 1] 0 1
      = [Body.new ⟨0,0⟩ ⟨0,0⟩ 1 1, Body.new ⟨10,0⟩ ⟨0,0⟩ 1 1] :=
  c7_resolve_nonoverlap _ 0 1 _ _ (by decide) rfl rfl
    (by norm_num [Body.new, Vec2.sub_def, Vec2.magSq])

theorem ratSqrt_four : ratSqrt 4 = 2 := by
  unfold ratSqrt
  rw [show ((4:ℚ)).num = 4 by norm_num, show ((4:ℚ)).den = 1 by norm_num]
  rw [show Int.toNat 4 = 4 from rfl]
  rw [show natSqrt 4 = 2 from by decide, show natSqrt 1 = 1 from by decide]
  norm_num

/-- C8 counterexample: at exactly coincident positions resolve is not a
zero-effect skip: with distinct velocities both positions and both
velocities change (the coincident pair falls through to the impact
branch, which rewinds by t = r over the relative speed and applies an
impulse). -/
theorem c8_counterexample :
    (resolve c8bs 0 1).map Body.vel ≠ c8bs.map Body.vel ∧
    (resolve c8bs 0 1).map Body.pos ≠ c8bs.map Body.pos := by
  have hr : resolve c8bs 0 1 =
      [{ pos := ⟨3/2,0⟩, vel := ⟨3/4,0⟩, acc := ⟨0,0⟩, mass := 1, radius := 1 },
       { pos := ⟨-3/2,0⟩, vel := ⟨1/4,0⟩, acc := ⟨0,0⟩, mass := 1, radius := 1 }] := by
    norm_num [resolve, resolveImpact, c8bs, updAt, Vec2.sub_def, Vec2.add_def,
      Vec2.mk_eq_zero, Vec2.zero_def, Vec2.magSq, Vec2.dot, Vec2.mulQ, Vec2.mag,
      ratSqrt_four]
  rw [hr]
  norm_num [c8bs]

/-- C8 amended: when the two bodies' positions coincide the separating
push-apart branch is skipped (its guard needs a nonzero direction), but
resolve does not return: it falls through to the impact branch, so
resolve equals resolveImpact on every coincident pair. -/
theorem c8_coincident_falls_to_impact (bs : List Body) (i j : Nat) (b1 b2 : Body)
    (h1 : bs[i]? = some b1) (h2 : bs[j]? = some b2) (hpos : b1.pos = b2.pos) :
    resolve bs i j = resolveImpact bs i j := by
  unfold resolve
  rw [h1, h2]
  have hd : b2.pos - b1.pos = 0 := by rw [hpos]; exact Vec2.sub_self _
  simp only [hd, Vec2.magSq_zero]
  rw [if_neg (by
    have : (0:ℚ) ≤ (b1.radius + b2.radius) * (b1.radius + b2.radius) :=
      mul_self_nonneg _
    simpa using this)]
  rw [if_neg (by simp)]

/-- C8 amended witness: the coincident counterexample pair indeed runs the
impact branch. -/
theorem c8_amended_witness : resolve c8bs 0 1 = resolveImpact c8bs 0 1 :=
  c8_coincident_falls_to_impact c8bs 0 1 _ _ rfl rfl rfl

theorem ratSqrt_nineFourths : ratSqrt (9/4) = 3/2 := by
  unfold ratSqrt
  rw [show ((9:ℚ)/4).num = 9 by norm_num, show ((9:ℚ)/4).den = 4 by norm_num]
  rw [show Int.toNat 9 = 9 from rfl]
  rw [show natSqrt 9 = 3 from by decide, show natSqrt 4 = 2 from by decide]
  norm_num

/-- C9: on the overlapping static pair the separating branch pushes the
bodies exactly to contact distance 2 (the computation is exact here) and
leaves both velocities unchanged. -/
theorem c9_separation_only :
    resolve c9bs 0 1 =
      [{ pos := ⟨-1/4,0⟩, vel := ⟨0,0⟩, acc := 0, mass := 1, radius := 1 },
       { pos := ⟨7/4,0⟩, vel := ⟨0,0⟩, acc := 0, mass := 1, radius := 1 }] ∧
    ((⟨7/4,0⟩ : Vec2) - (⟨-1/4,0⟩ : Vec2)).mag = 2 := by
  constructor
  · norm_num [resolve, c9bs, Body.new, updAt, Vec2.sub_def, Vec2.add_def,
      Vec2.mk_eq_zero, Vec2.zero_def, Vec2.magSq, Vec2.dot, Vec2.mulQ, Vec2.mag,
      ratSqrt_nineFourths]
  · norm_num [Vec2.sub_def, Vec2.mag, Vec2.magSq, ratSqrt_four]

/-! ### Coincident merge (C6) and empty-arena queries (C10) -/

/-- C6: inserting a body at (2,3) with mass 1 into a freshly cleared tree
and then a second body at exactly (2,3) with mass 4 leaves a single
occupied leaf at that position of mass 5; the second insert adds no node
to the arena. -/
theorem c6_coincident_merge (theta eps : ℚ) (quad : Quad) :
    ∃ t1 t2 : QT,
      QT.insert 1 ((QT.new theta eps).clear quad) ⟨2,3⟩ 1 0 = some t1 ∧
      QT.insert 1 t1 ⟨2,3⟩ 4 1 = some t2 ∧
      t1.nodes.length = 1 ∧ t2.nodes.length = 1 ∧
      t2.nodes[0]? = some (mergedLeaf quad 5) := by
  refine ⟨⟨theta * theta, eps * eps, [mergedLeaf quad 1], []⟩,
    ⟨theta * theta, eps * eps, [mergedLeaf quad 5], []⟩, ?_, ?_, rfl, rfl, rfl⟩
  · norm_num [QT.insert, QT.insertGo, QT.clear, QT.new, Node.new, QT.writeBody,
      mergedLeaf]
  · norm_num [QT.insert, QT.insertGo, QT.writeBody, mergedLeaf]

/-- C10: on an empty node arena (a tree fresh from Quadtree::new, never
cleared) the force query returns the zero vector and the collision query
emits nothing; both return through their explicit emptiness guards. -/
theorem c10_empty_arena (theta eps : ℚ) (pos : Vec2) (bidx : Nat)
    (radius : ℚ) (fuel : Nat) :
    QT.acc (QT.new theta eps) pos fuel = some 0 ∧
    QT.find_collisions (QT.new theta eps) bidx pos radius fuel = some [] := by
  constructor <;> simp [QT.acc, QT.find_collisions, QT.new]

/-! ### Force query as a sum over accepted nodes (C2) -/

theorem sumTerms_nil (t : QT) (pos : Vec2) : QT.sumTerms t pos [] = 0 := rfl

theorem sumTerms_cons (t : QT) (pos : Vec2) (i : Nat) (l : List Nat) :
    QT.sumTerms t pos (i :: l) = (match t.nodes[i]? with
      | some n => t.accTerm pos n
      | none => 0) + QT.sumTerms t pos l := rfl

theorem accStep_eq (t : QT) (pos a : Vec2) (n : Node) :
    QT.accStep t pos a n = a + t.accTerm pos n := by
  unfold QT.accStep QT.accTerm
  by_cases hm : n.mass > QT.massFloor
  · rw [if_pos hm, if_pos hm]
  · rw [if_neg hm, if_neg hm, Vec2.add_zero']

theorem accGo_sum (t : QT) (pos : Vec2) :
    ∀ (fuel idx : Nat) (a v : Vec2), QT.accGo t pos fuel idx a = some v →
      ∃ l, QT.accNodesGo t pos fuel idx = some l ∧ v = a + QT.sumTerms t pos l ∧
        ∀ m ∈ l, ∃ n, t.nodes[m]? = some n ∧ t.accepts pos n
  | 0, _, _, _ => by intro h; exact absurd h (by simp [QT.accGo])
  | fuel+1, idx, a, v => by
    intro h
    rw [QT.accGo] at h
    cases hn : t.nodes[idx]? with
    | none => rw [hn] at h; exact absurd h (by simp)
    | some n =>
      rw [hn] at h
      simp only [accStep_eq] at h
      by_cases hacc : t.accepts pos n
      · rw [if_pos hacc] at h
        by_cases hnext : n.next = 0
        · rw [if_pos hnext] at h
          refine ⟨[idx], ?_, ?_, ?_⟩
          · simp [QT.accNodesGo, hn, hacc, hnext]
          · have hv : v = a + t.accTerm pos n := (Option.some.injEq _ _ ▸ h).symm
            rw [hv, sumTerms_cons, hn, sumTerms_nil, Vec2.add_zero']
          · intro m hm
            rcases List.mem_singleton.mp hm with rfl
            exact ⟨n, hn, hacc⟩
        · rw [if_neg hnext] at h
          obtain ⟨l', hl', hv', hmem'⟩ := accGo_sum t pos fuel n.next (a + t.accTerm pos n) v h
          refine ⟨idx :: l', ?_, ?_, ?_⟩
          · simp [QT.accNodesGo, hn, hacc, hnext, hl']
          · rw [hv', sumTerms_cons, hn, Vec2.add_assoc']
          · intro m hm
            rcases List.mem_cons.mp hm with rfl | hm'
            · exact ⟨n, hn, hacc⟩
            · exact hmem' m hm'
      · rw [if_neg hacc] at h
        obtain ⟨l', hl', hv', hmem'⟩ := accGo_sum t pos fuel n.children a v h
        refine ⟨l', ?_, hv', hmem'⟩
        simp [QT.accNodesGo, hn, hacc, hl']

/-- C2: whenever the iterative force traversal completes, its result is
exactly the sum, over the accepted nodes it visited (a node is accepted
iff it is a leaf or passes the opening-angle test; a non-accepted node is
descended into; the traversal ends at next = 0), of the softened
point-mass terms, where only accepted nodes with mass above the 1e-10
floor contribute. -/
theorem c2_acc_is_sum_over_accepted (t : QT) (pos : Vec2) (fuel : Nat) (v : Vec2)
    (h : QT.acc t pos fuel = some v) :
    ∃ l, QT.accNodes t pos fuel = some l ∧ v = QT.sumTerms t pos l ∧
      ∀ m ∈ l, ∃ n, t.nodes[m]? = some n ∧ t.accepts pos n := by
  unfold QT.acc at h
  unfold QT.accNodes
  by_cases he : t.nodes = []
  · rw [if_pos he] at h
    refine ⟨[], by rw [if_pos he], ?_, by simp⟩
    rw [sumTerms_nil]
    exact ((Option.some.injEq _ _ ▸ h)).symm
  · rw [if_neg he] at h
    obtain ⟨l, hl, hv, hmem⟩ := accGo_sum t pos fuel 0 0 v h
    exact ⟨l, by rw [if_neg he]; exact hl, by rw [hv, Vec2.zero_add'], hmem⟩

/-- C2 witness: on a freshly cleared tree the traversal returns zero, the
accepted list is the root alone, and the sum over it is zero (the empty
root fails the mass floor). -/
theorem c2_witness :
    ∃ l, QT.accNodes ((QT.new 1 1).clear ⟨⟨0,0⟩, 4⟩) ⟨5,5⟩ 1 = some l ∧
      (0 : Vec2) = QT.sumTerms ((QT.new 1 1).clear ⟨⟨0,0⟩, 4⟩) ⟨5,5⟩ l ∧
      ∀ m ∈ l, ∃ n, ((QT.new 1 1).clear ⟨⟨0,0⟩, 4⟩).nodes[m]? = some n ∧
        QT.accepts ((QT.new 1 1).clear ⟨⟨0,0⟩, 4⟩) ⟨5,5⟩ n :=
  c2_acc_is_sum_over_accepted _ _ 1 0
    (by norm_num [QT.acc, QT.accGo, QT.accStep, QT.clear, QT.new, Node.new,
      QT.accepts, QT.massFloor])

/-! ### Anatomy of one subdivision -/

theorem subdivide_eq (t : QT) (node : Nat) (nd : Node) (hn : t.nodes[node]? = some nd) :
    t.subdivide node = (t.nodes.length,
      { t with
        nodes := (t.nodes.set node { nd with children := t.nodes.length }) ++
          [Node.new (t.nodes.length+1) (nd.quad.into_quadrant 0),
           Node.new (t.nodes.length+2) (nd.quad.into_quadrant 1),
           Node.new (t.nodes.length+3) (nd.quad.into_quadrant 2),
           Node.new nd.next (nd.quad.into_quadrant 3)],
        parents := t.parents ++ [node] }) := by
  unfold QT.subdivide
  rw [hn]

theorem node_lt_of_getq {l : List Node} {n : Nat} {nd : Node}
    (h : l[n]? = some nd) : n < l.length :=
  (List.getElem?_eq_some.mp h).1

theorem subdivide_len (t : QT) (node : Nat) (nd : Node) (hn : t.nodes[node]? = some nd) :
    (t.subdivide node).2.nodes.length = t.nodes.length + 4 := by
  rw [subdivide_eq t node nd hn]
  simp

theorem subdivide_parents (t : QT) (node : Nat) (nd : Node) (hn : t.nodes[node]? = some nd) :
    (t.subdivide node).2.parents = t.parents ++ [node] := by
  rw [subdivide_eq t node nd hn]

theorem subdivide_parent_at (t : QT) (node : Nat) (nd : Node) (hn : t.nodes[node]? = some nd) :
    (t.subdivide node).2.nodes[node]? = some { nd with children := t.nodes.length } := by
  have hlt : node < t.nodes.length := node_lt_of_getq hn
  rw [subdivide_eq t node nd hn]
  simp only [List.getElem?_append, List.length_set, hlt, if_pos hlt]
  simp [List.getElem?_set, hlt]

theorem subdivide_child (t : QT) (node : Nat) (nd : Node) (hn : t.nodes[node]? = some nd)
    (k : Nat) (hk : k < 4) :
    (t.subdivide node).2.nodes[t.nodes.length + k]? =
      some (Node.new
        (if k = 3 then nd.next else t.nodes.length + k + 1)
        (nd.quad.into_quadrant k)) := by
  rw [subdivide_eq t node nd hn]
  simp only [List.getElem?_append, List.length_set]
  rw [if_neg (by omega)]
  have hsub : t.nodes.length + k - t.nodes.length = k := by omega
  rw [hsub]
  interval_cases k <;> rfl

theorem subdivide_other (t : QT) (node : Nat) (nd : Node) (hn : t.nodes[node]? = some nd)
    (m : Nat) (hne : m ≠ node) (hm : m < t.nodes.length) :
    (t.subdivide node).2.nodes[m]? = t.nodes[m]? := by
  rw [subdivide_eq t node nd hn]
  simp only [List.getElem?_append, List.length_set, if_pos hm]
  rw [List.getElem?_set_ne (fun h => hne h.symm)]

theorem subdivide_tsq (t : QT) (node : Nat) (nd : Node) (hn : t.nodes[node]? = some nd) :
    (t.subdivide node).2.t_sq = t.t_sq ∧ (t.subdivide node).2.e_sq = t.e_sq := by
  rw [subdivide_eq t node nd hn]
  exact ⟨rfl, rfl⟩

theorem subdivide_fst (t : QT) (node : Nat) (nd : Node) (hn : t.nodes[node]? = some nd) :
    (t.subdivide node).1 = t.nodes.length := by
  rw [subdivide_eq t node nd hn]

/-! ### Termination and non-termination of the subdivision loop (C5) -/

theorem sep_pos (p q : Vec2) (h : p ≠ q) : 0 < sep p q := by
  rcases lt_or_eq_of_le (le_max_left |p.x - q.x| |p.y - q.y|) with h1 | h1
  · exact lt_of_le_of_lt (abs_nonneg _) h1
  · rcases abs_nonneg (p.x - q.x) |>.lt_or_eq with h2 | h2
    · exact lt_of_lt_of_le h2 (le_max_left _ _)
    · rcases abs_nonneg (p.y - q.y) |>.lt_or_eq with h3 | h3
      · exact lt_of_lt_of_le h3 (le_max_right _ _)
      · exfalso
        apply h
        have hx : p.x = q.x := by
          have := abs_eq_zero.mp h2.symm; linarith
        have hy : p.y = q.y := by
          have := abs_eq_zero.mp h3.symm; linarith
        cases p; cases q
        simp_all

theorem sep_le_size (q : Quad) (p1 p2 : Vec2) (h1 : inQuad q p1) (h2 : inQuad q p2) :
    sep p1 p2 ≤ q.size := by
  obtain ⟨a1, a2, a3, a4⟩ := h1
  obtain ⟨b1, b2, b3, b4⟩ := h2
  refine max_le (abs_le.mpr ⟨by linarith, by linarith⟩)
    (abs_le.mpr ⟨by linarith, by linarith⟩)

/-- A position stays inside the sub-quad of its own quadrant. -/
theorem inQuad_into_quadrant (q : Quad) (p : Vec2) (h : inQuad q p) :
    inQuad (q.into_quadrant (q.find_quadrant p)) p := by
  obtain ⟨h1, h2, h3, h4⟩ := h
  unfold inQuad Quad.into_quadrant Quad.find_quadrant
  by_cases hx : p.x > q.center.x <;> by_cases hy : p.y > q.center.y <;>
    simp only [hx, hy, if_pos, if_neg, ite_true, ite_false] <;>
    norm_num <;>
    refine ⟨by linarith, by linarith, by linarith, by linarith⟩

theorem splitLoop_exists : ∀ (n : Nat) (t : QT) (node : Nat) (nd : Node)
    (p : Vec2) (m : ℚ) (pidx : Nat) (pos : Vec2) (mass : ℚ) (bidx : Nat),
    t.nodes[node]? = some nd → nd.children = 0 →
    inQuad nd.quad p → inQuad nd.quad pos →
    nd.quad.size < sep p pos * 2^n →
    ∃ fuel t', QT.splitLoop fuel t node p m pidx pos mass bidx = some t'
  | 0, t, node, nd, p, m, pidx, pos, mass, bidx => by
    intro hn _ hp hpos hsz
    exfalso
    have := sep_le_size nd.quad p pos hp hpos
    simp only [pow_zero, mul_one] at hsz
    linarith
  | n+1, t, node, nd, p, m, pidx, pos, mass, bidx => by
    intro hn hleaf hp hpos hsz
    have hpar := subdivide_parent_at t node nd hn
    by_cases hq : nd.quad.find_quadrant p = nd.quad.find_quadrant pos
    · have hq1lt := Quad.find_quadrant_lt nd.quad p
      have hch := subdivide_child t node nd hn (nd.quad.find_quadrant p) hq1lt
      have hfq : (Node.new
          (if nd.quad.find_quadrant p = 3 then nd.next
            else t.nodes.length + nd.quad.find_quadrant p + 1)
          (nd.quad.into_quadrant (nd.quad.find_quadrant p))).quad
          = nd.quad.into_quadrant (nd.quad.find_quadrant p) := rfl
      have hsz' : (nd.quad.into_quadrant (nd.quad.find_quadrant p)).size
          = nd.quad.size * (1/2) := rfl
      obtain ⟨fuel, t', hrec⟩ := splitLoop_exists n (t.subdivide node).2
        (t.nodes.length + nd.quad.find_quadrant p)
        (Node.new
          (if nd.quad.find_quadrant p = 3 then nd.next
            else t.nodes.length + nd.quad.find_quadrant p + 1)
          (nd.quad.into_quadrant (nd.quad.find_quadrant p)))
        p m pidx pos mass bidx hch rfl
        (by rw [hfq]; exact inQuad_into_quadrant nd.quad p ⟨hp.1, hp.2.1, hp.2.2.1, hp.2.2.2⟩)
        (by rw [hfq, hq]; exact inQuad_into_quadrant nd.quad pos hpos)
        (by rw [hfq, hsz']; rw [pow_succ] at hsz; nlinarith [sep_pos, hsz])
      refine ⟨fuel + 1, t', ?_⟩
      rw [QT.splitLoop, hpar]
      simp only
      rw [if_pos hq]
      rw [subdivide_fst t node nd hn]
      exact hrec
    · refine ⟨1, ((t.subdivide node).2.writeBody
          ((t.subdivide node).1 + nd.quad.find_quadrant p) p m pidx).writeBody
          ((t.subdivide node).1 + nd.quad.find_quadrant pos) pos mass bidx, ?_⟩
      rw [QT.splitLoop, hpar]
      simp only
      rw [if_neg hq]

/-- C5 amended: the subdivision loop of insert does terminate whenever the
resident position and the new position differ and both lie inside the quad
of the leaf being split: after finitely many subdivisions find_quadrant
separates them and each body is placed in its own child. -/
theorem c5_split_terminates (t : QT) (node : Nat) (nd : Node) (p pos : Vec2)
    (m mass : ℚ) (pidx bidx : Nat)
    (hn : t.nodes[node]? = some nd) (hleaf : nd.children = 0)
    (hne : p ≠ pos) (hp : inQuad nd.quad p) (hpos : inQuad nd.quad pos) :
    ∃ fuel t', QT.splitLoop fuel t node p m pidx pos mass bidx = some t' := by
  have hd : 0 < sep p pos := sep_pos p pos hne
  obtain ⟨k, hk⟩ := exists_nat_gt (nd.quad.size / sep p pos)
  have hk2 : ((k:ℚ)) ≤ 2^k := by
    have := (Nat.lt_two_pow k).le
    exact_mod_cast this
  have hsz : nd.quad.size < sep p pos * 2^k := by
    have h1 : nd.quad.size < (k:ℚ) * sep p pos := (div_lt_iff₀ hd).mp hk
    have h2 : (k:ℚ) * sep p pos ≤ 2^k * sep p pos :=
      mul_le_mul_of_nonneg_right hk2 hd.le
    calc nd.quad.size < (k:ℚ) * sep p pos := h1
      _ ≤ 2^k * sep p pos := h2
      _ = sep p pos * 2^k := mul_comm _ _
  exact splitLoop_exists k t node nd p m pidx pos mass bidx hn hleaf hp hpos hsz

/-- C5 amended witness: splitting the occupied leaf of tW2 between the
resident body at (1,1) and a new body at (-1,-1), both inside the quad,
terminates. -/
theorem c5_split_terminates_witness :
    ∃ fuel t', QT.splitLoop fuel tW2 0 ⟨1,1⟩ 1 5 ⟨-1,-1⟩ 2 6 = some t' :=
  c5_split_terminates tW2 0 leafW ⟨1,1⟩ ⟨-1,-1⟩ 1 2 5 6 rfl rfl
    (by simp [Vec2.mk.injEq, leafW]; norm_num)
    (by norm_num [inQuad, leafW]) (by norm_num [inQuad, leafW])

theorem splitLoop_none_aux : ∀ (fuel : Nat) (t : QT) (node : Nat) (nd : Node),
    t.nodes[node]? = some nd → nd.children = 0 →
    0 < nd.quad.size →
    nd.quad.center.x = 1/2 - nd.quad.size * (1/2) →
    nd.quad.center.y = -(nd.quad.size * (1/2)) →
    QT.splitLoop fuel t node ⟨1,0⟩ 1 0 ⟨2,0⟩ 1 1 = none
  | 0, t, node, nd => by intro _ _ _ _ _; rfl
  | fuel+1, t, node, nd => by
    intro hn hleaf hs hcx hcy
    have hpar := subdivide_parent_at t node nd hn
    have hq1 : nd.quad.find_quadrant ⟨1,0⟩ = 3 := by
      unfold Quad.find_quadrant
      rw [if_pos (show (0:ℚ) > nd.quad.center.y by rw [hcy]; linarith),
        if_pos (show (1:ℚ) > nd.quad.center.x by rw [hcx]; linarith)]
    have hq2 : nd.quad.find_quadrant ⟨2,0⟩ = 3 := by
      unfold Quad.find_quadrant
      rw [if_pos (show (0:ℚ) > nd.quad.center.y by rw [hcy]; linarith),
        if_pos (show (2:ℚ) > nd.quad.center.x by rw [hcx]; linarith)]
    rw [QT.splitLoop, hpar]
    simp only [hq1, hq2, if_pos rfl]
    rw [subdivide_fst t node nd hn]
    have hch := subdivide_child t node nd hn 3 (by omega)
    rw [if_pos rfl] at hch
    apply splitLoop_none_aux fuel (t.subdivide node).2 (t.nodes.length + 3)
      (Node.new nd.next (nd.quad.into_quadrant 3)) hch rfl
    · show 0 < nd.quad.size * (1/2)
      linarith
    · show nd.quad.center.x + (((3 % 2 : Nat) : ℚ) - 1/2) * (nd.quad.size * (1/2))
        = 1/2 - (nd.quad.size * (1/2)) * (1/2)
      rw [hcx]
      norm_num
      ring
    · show nd.quad.center.y + (((3 / 2 : Nat) : ℚ) - 1/2) * (nd.quad.size * (1/2))
        = -((nd.quad.size * (1/2)) * (1/2))
      rw [hcy]
      norm_num
      ring

theorem insertGo_tA (fuel : Nat) :
    QT.insertGo (fuel+1) tA ⟨2,0⟩ 1 1 0 = QT.splitLoop fuel tA 0 ⟨1,0⟩ 1 0 ⟨2,0⟩ 1 1 := by
  rw [QT.insertGo]
  norm_num [tA, rootA, Vec2.mk.injEq]

theorem splitLoop_tA_none (fuel : Nat) :
    QT.splitLoop fuel tA 0 ⟨1,0⟩ 1 0 ⟨2,0⟩ 1 1 = none := by
  cases fuel with
  | zero => rfl
  | succ fuel =>
    have hn : tA.nodes[0]? = some rootA := rfl
    have hpar := subdivide_parent_at tA 0 rootA hn
    have hq1 : rootA.quad.find_quadrant ⟨1,0⟩ = 1 := by
      unfold Quad.find_quadrant rootA
      norm_num
    have hq2 : rootA.quad.find_quadrant ⟨2,0⟩ = 1 := by
      unfold Quad.find_quadrant rootA
      norm_num
    rw [QT.splitLoop, hpar]
    simp only [hq1, hq2, if_pos rfl]
    rw [subdivide_fst tA 0 rootA hn]
    have hch := subdivide_child tA 0 rootA hn 1 (by omega)
    rw [if_neg (by omega)] at hch
    apply splitLoop_none_aux fuel (tA.subdivide 0).2 (tA.nodes.length + 1)
      (Node.new (tA.nodes.length + 1 + 1) (rootA.quad.into_quadrant 1)) hch rfl
    · show 0 < rootA.quad.size * (1/2)
      norm_num [rootA]
    · show rootA.quad.center.x + (((1 % 2 : Nat) : ℚ) - 1/2) * (rootA.quad.size * (1/2))
        = 1/2 - (rootA.quad.size * (1/2)) * (1/2)
      norm_num [rootA]
    · show rootA.quad.center.y + (((1 / 2 : Nat) : ℚ) - 1/2) * (rootA.quad.size * (1/2))
        = -((rootA.quad.size * (1/2)) * (1/2))
      norm_num [rootA]

/-- C5 counterexample: tA is a well-formed (reachable) tree holding one
body at (1,0), yet inserting a body at the different position (2,0) never
terminates: both positions are outside the root quad on the same side, so
every subdivision puts them in the same quadrant again. -/
theorem c5_counterexample :
    Reachable tA ∧ ¬ insertTerminatesFrom tA ⟨2,0⟩ 1 1 := by
  constructor
  · refine Reachable.insert ((QT.new 1 1).clear ⟨⟨0,0⟩, 1⟩) tA 1 ⟨1,0⟩ 1 0
      (Reachable.clear 1 1 ⟨⟨0,0⟩, 1⟩) ?_
    norm_num [QT.insert, QT.insertGo, QT.clear, QT.new, Node.new, QT.writeBody,
      tA, rootA]
  · rintro ⟨fuel, t', h⟩
    cases fuel with
    | zero => exact Option.noConfusion h
    | succ fuel =>
      rw [QT.insert, insertGo_tA, splitLoop_tA_none] at h
      exact Option.noConfusion h

/-! ### Arena well-formedness (C4) and propagation (C1) -/

theorem getq_set_cases (l : List Node) (n : Nat) (a : Node) (m : Nat) :
    (l.set n a)[m]? = if n = m ∧ n < l.length then some a else l[m]? := by
  rw [List.getElem?_set]
  by_cases h : n = m
  · subst h
    by_cases h2 : n < l.length
    · simp [h2]
    · simp [h2, List.getElem?_eq_none (Nat.le_of_not_lt h2)]
  · simp [h]

theorem set_pres_fwd (l : List Node) (n : Nat) (nd nd' : Node) (hn : l[n]? = some nd)
    (m : Nat) (x : Node) (hx : (l.set n nd')[m]? = some x) :
    ∃ y, l[m]? = some y ∧ ((m = n ∧ x = nd' ∧ y = nd) ∨ x = y) := by
  rw [getq_set_cases] at hx
  split at hx
  · rename_i hcond
    obtain ⟨rfl, _⟩ := hcond
    exact ⟨nd, hn, Or.inl ⟨rfl, (Option.some.injEq _ _ ▸ hx).symm, rfl⟩⟩
  · exact ⟨x, hx, Or.inr rfl⟩

theorem set_pres_bwd (l : List Node) (n : Nat) (nd nd' : Node) (hn : l[n]? = some nd)
    (m : Nat) (y : Node) (hy : l[m]? = some y) :
    ∃ x, (l.set n nd')[m]? = some x ∧ ((m = n ∧ x = nd' ∧ y = nd) ∨ x = y) := by
  rw [getq_set_cases]
  by_cases h : n = m
  · subst h
    have hlt : n < l.length := node_lt_of_getq hn
    rw [if_pos ⟨rfl, hlt⟩]
    refine ⟨nd', rfl, Or.inl ⟨rfl, rfl, ?_⟩⟩
    rw [hn] at hy
    exact (Option.some.injEq _ _ ▸ hy).symm
  · rw [if_neg (fun hc => h hc.1)]
    exact ⟨y, hy, Or.inr rfl⟩

theorem subdivide_pres_fwd (t : QT) (node : Nat) (nd : Node)
    (hn : t.nodes[node]? = some nd) (m : Nat) (x : Node)
    (hx : (t.subdivide node).2.nodes[m]? = some x) :
    (m = node ∧ x = { nd with children := t.nodes.length }) ∨
    (m < t.nodes.length ∧ m ≠ node ∧ t.nodes[m]? = some x) ∨
    (∃ k, k < 4 ∧ m = t.nodes.length + k ∧
      x = Node.new (if k = 3 then nd.next else t.nodes.length + k + 1)
        (nd.quad.into_quadrant k)) := by
  have hmlt : m < t.nodes.length + 4 := by
    have := node_lt_of_getq hx
    rwa [subdivide_len t node nd hn] at this
  by_cases hm : m = node
  · rw [hm, subdivide_parent_at t node nd hn] at hx
    exact Or.inl ⟨hm, (Option.some.injEq _ _ ▸ hx).symm⟩
  · by_cases hlt : m < t.nodes.length
    · rw [subdivide_other t node nd hn m hm hlt] at hx
      exact Or.inr (Or.inl ⟨hlt, hm, hx⟩)
    · have hk4 : m - t.nodes.length < 4 := by omega
      refine Or.inr (Or.inr ⟨m - t.nodes.length, hk4, by omega, ?_⟩)
      have hc := subdivide_child t node nd hn (m - t.nodes.length) hk4
      rw [show t.nodes.length + (m - t.nodes.length) = m by omega] at hc
      rw [hc] at hx
      rw [show t.nodes.length + (m - t.nodes.length) = m by omega]
      exact (Option.some.injEq _ _ ▸ hx).symm

theorem subdivide_pres_bwd (t : QT) (node : Nat) (nd : Node)
    (hn : t.nodes[node]? = some nd) (m : Nat) (y : Node)
    (hy : t.nodes[m]? = some y) :
    ∃ x, (t.subdivide node).2.nodes[m]? = some x ∧
      ((m = node ∧ x = { nd with children := t.nodes.length } ∧ y = nd) ∨ x = y) := by
  by_cases hm : m = node
  · refine ⟨_, by rw [hm]; exact subdivide_parent_at t node nd hn, Or.inl ⟨hm, rfl, ?_⟩⟩
    rw [hm, hn] at hy
    exact (Option.some.injEq _ _ ▸ hy).symm
  · exact ⟨y, by rw [subdivide_other t node nd hn m hm (node_lt_of_getq hy)]; exact hy,
      Or.inr rfl⟩

theorem OkR_congr (ns ns' : List Node) :
    ∀ R : List Nat, ns.length ≤ ns'.length →
    (∀ p ∈ R, ∀ (nd : Node), ns[p]? = some nd →
      ∃ nd' : Node, ns'[p]? = some nd' ∧ nd'.children = nd.children) →
    OkR ns R → OkR ns' R
  | [] => by intro _ _ _; trivial
  | p :: rest => by
    intro hlen hsame hok
    obtain ⟨hnotin, ⟨nd, hnd, hch, hbound, hkn⟩, hrest⟩ := hok
    obtain ⟨nd', hnd', hch'⟩ := hsame p (List.mem_cons_self p rest) nd hnd
    refine ⟨hnotin, ⟨nd', hnd', by rw [hch']; exact hch, by rw [hch']; omega,
      fun k hk => by rw [hch']; exact hkn k hk⟩, ?_⟩
    exact OkR_congr ns ns' rest hlen
      (fun q hq => hsame q (List.mem_cons_of_mem p hq)) hrest

theorem OkR_mem (ns : List Node) :
    ∀ (R : List Nat) (p : Nat), p ∈ R → OkR ns R →
      ∃ nd : Node, ns[p]? = some nd ∧ nd.children ≠ 0
  | [], p => by intro h; exact absurd h (List.not_mem_nil p)
  | q :: rest, p => by
    intro hmem hok
    obtain ⟨_, ⟨nd, hnd, hch, _, _⟩, hrest⟩ := hok
    rcases List.mem_cons.mp hmem with rfl | hmem'
    · exact ⟨nd, hnd, hch⟩
    · exact OkR_mem ns rest p hmem' hrest

/-- Replacing one node with one that keeps its children and next pointers
preserves every arena invariant. -/
theorem WF_set (t : QT) (n : Nat) (nd nd' : Node) (hn : t.nodes[n]? = some nd)
    (hch : nd'.children = nd.children) (hnx : nd'.next = nd.next) (hwf : WF t) :
    WF { t with nodes := t.nodes.set n nd' } := by
  have hlen : (t.nodes.set n nd').length = t.nodes.length := List.length_set _ _ _
  constructor
  case nonempty =>
    intro hnil
    have h2 : t.nodes.set n nd' = [] := hnil
    apply hwf.nonempty
    apply List.eq_nil_of_length_eq_zero
    rw [← hlen, h2]
    rfl
  case rootNext =>
    intro x hx
    obtain ⟨y, hy, hcase⟩ := set_pres_fwd t.nodes n nd nd' hn 0 x hx
    rcases hcase with ⟨_, hx2, hy2⟩ | hx2
    · rw [hx2, hnx, ← hy2]; exact hwf.rootNext y hy
    · rw [hx2]; exact hwf.rootNext y hy
  case branchBounds =>
    intro m x hx hbr
    obtain ⟨y, hy, hcase⟩ := set_pres_fwd t.nodes n nd nd' hn m x hx
    have hxy : x.children = y.children := by
      rcases hcase with ⟨_, hx2, hy2⟩ | hx2
      · rw [hx2, hch, hy2]
      · rw [hx2]
    show m < x.children ∧ x.children + 3 < (t.nodes.set n nd').length
    rw [hxy, hlen]
    exact hwf.branchBounds m y hy (by rw [← hxy]; exact hbr)
  case nextChain =>
    intro m x hx hbr
    obtain ⟨y, hy, hcase⟩ := set_pres_fwd t.nodes n nd nd' hn m x hx
    have hxy : x.children = y.children := by
      rcases hcase with ⟨_, hx2, hy2⟩ | hx2
      · rw [hx2, hch, hy2]
      · rw [hx2]
    have hxnx : x.next = y.next := by
      rcases hcase with ⟨_, hx2, hy2⟩ | hx2
      · rw [hx2, hnx, hy2]
      · rw [hx2]
    obtain ⟨c0, c1, c2, c3, g0, g1, g2, g3, e0, e1, e2, e3⟩ :=
      hwf.nextChain m y hy (by rw [← hxy]; exact hbr)
    rw [← hxy] at g0 g1 g2 g3 e0 e1 e2
    rw [← hxnx] at e3
    obtain ⟨x0, hx0, hc0⟩ := set_pres_bwd t.nodes n nd nd' hn x.children c0 g0
    obtain ⟨x1, hx1, hc1⟩ := set_pres_bwd t.nodes n nd nd' hn (x.children+1) c1 g1
    obtain ⟨x2, hx2, hc2⟩ := set_pres_bwd t.nodes n nd nd' hn (x.children+2) c2 g2
    obtain ⟨x3, hx3, hc3⟩ := set_pres_bwd t.nodes n nd nd' hn (x.children+3) c3 g3
    have hnxeq : ∀ a b : Node, (a = nd' ∧ b = nd) ∨ a = b → a.next = b.next := by
      rintro a b (⟨ha, hb⟩ | hab)
      · rw [ha, hnx, hb]
      · rw [hab]
    have strip : ∀ (i : Nat) (a b : Node), ((i = n ∧ a = nd' ∧ b = nd) ∨ a = b) →
        ((a = nd' ∧ b = nd) ∨ a = b) := by
      rintro i a b (⟨_, h1, h2⟩ | h1)
      · exact Or.inl ⟨h1, h2⟩
      · exact Or.inr h1
    refine ⟨x0, x1, x2, x3, hx0, hx1, hx2, hx3, ?_, ?_, ?_, ?_⟩
    · rw [hnxeq x0 c0 (strip _ x0 c0 hc0)]; exact e0
    · rw [hnxeq x1 c1 (strip _ x1 c1 hc1)]; exact e1
    · rw [hnxeq x2 c2 (strip _ x2 c2 hc2)]; exact e2
    · rw [hnxeq x3 c3 (strip _ x3 c3 hc3)]; exact e3
  case branchInParents =>
    intro m x hx hbr
    obtain ⟨y, hy, hcase⟩ := set_pres_fwd t.nodes n nd nd' hn m x hx
    have hxy : x.children = y.children := by
      rcases hcase with ⟨_, hx2, hy2⟩ | hx2
      · rw [hx2, hch, hy2]
      · rw [hx2]
    exact hwf.branchInParents m y hy (by rw [← hxy]; exact hbr)
  case parentsLt =>
    intro p hp
    show p < (t.nodes.set n nd').length
    rw [hlen]
    exact hwf.parentsLt p hp
  case okr =>
    refine OkR_congr t.nodes (t.nodes.set n nd') t.parents.reverse (by rw [hlen])
      (fun p _ y hy => ?_) hwf.okr
    obtain ⟨x, hx, hcase⟩ := set_pres_bwd t.nodes n nd nd' hn p y hy
    refine ⟨x, hx, ?_⟩
    rcases hcase with ⟨_, hx2, hy2⟩ | hx2
    · rw [hx2, hch, hy2]
    · rw [hx2]

/-- writeBody only touches pos, mass and body_index, so it preserves WF. -/
theorem WF_writeBody (t : QT) (n : Nat) (pos : Vec2) (mass : ℚ) (bidx : Nat)
    (hwf : WF t) : WF (t.writeBody n pos mass bidx) := by
  unfold QT.writeBody
  cases hn : t.nodes[n]? with
  | none => exact hwf
  | some nd => exact WF_set t n nd _ hn rfl rfl hwf

/-- Subdividing a leaf preserves every arena invariant. -/
theorem WF_subdivide (t : QT) (node : Nat) (nd : Node) (hn : t.nodes[node]? = some nd)
    (hleaf : nd.children = 0) (hwf : WF t) : WF (t.subdivide node).2 := by
  have hlt : node < t.nodes.length := node_lt_of_getq hn
  have hlen := subdivide_len t node nd hn
  have hpar := subdivide_parents t node nd hn
  have hnotin : node ∉ t.parents.reverse := by
    intro hmem
    obtain ⟨nd2, hnd2, hch2⟩ := OkR_mem t.nodes t.parents.reverse node hmem hwf.okr
    rw [hn] at hnd2
    exact hch2 (by rw [← (Option.some.injEq _ _ ▸ hnd2 : nd = nd2), hleaf])
  constructor
  case nonempty =>
    intro hnil
    have := congrArg List.length hnil
    rw [hlen] at this
    exact absurd this (by simp)
  case rootNext =>
    intro x hx
    rcases subdivide_pres_fwd t node nd hn 0 x hx with
      ⟨hm, hxeq⟩ | ⟨_, _, hold⟩ | ⟨k, _, hk, _⟩
    · rw [hxeq]
      show nd.next = 0
      exact hwf.rootNext nd (by rw [hm]; exact hn)
    · exact hwf.rootNext x hold
    · omega
  case branchBounds =>
    intro m x hx hbr
    rw [hlen]
    rcases subdivide_pres_fwd t node nd hn m x hx with
      ⟨hm, hxeq⟩ | ⟨hmlt, _, hold⟩ | ⟨k, _, _, hxeq⟩
    · have hxch : x.children = t.nodes.length := by rw [hxeq]
      rw [hxch, hm]
      exact ⟨hlt, by omega⟩
    · have := hwf.branchBounds m x hold hbr
      omega
    · rw [hxeq] at hbr
      exact absurd rfl hbr
  case nextChain =>
    intro m x hx hbr
    rcases subdivide_pres_fwd t node nd hn m x hx with
      ⟨hm, hxeq⟩ | ⟨hmlt, hmne, hold⟩ | ⟨k, _, _, hxeq⟩
    · have hxch : x.children = t.nodes.length := by rw [hxeq]
      have hxnx : x.next = nd.next := by rw [hxeq]
      have hc0 := subdivide_child t node nd hn 0 (by omega)
      have hc1 := subdivide_child t node nd hn 1 (by omega)
      have hc2 := subdivide_child t node nd hn 2 (by omega)
      have hc3 := subdivide_child t node nd hn 3 (by omega)
      rw [if_neg (by omega)] at hc0 hc1 hc2
      rw [if_pos rfl] at hc3
      rw [Nat.add_zero] at hc0
      refine ⟨_, _, _, _, by rw [hxch]; exact hc0, by rw [hxch]; exact hc1,
        by rw [hxch]; exact hc2, by rw [hxch]; exact hc3, ?_, ?_, ?_, ?_⟩
      · show t.nodes.length + 0 + 1 = x.children + 1
        rw [hxch]
      · show t.nodes.length + 1 + 1 = x.children + 2
        rw [hxch]
      · show t.nodes.length + 2 + 1 = x.children + 3
        rw [hxch]
      · show nd.next = x.next
        rw [hxnx]
    · obtain ⟨c0, c1, c2, c3, g0, g1, g2, g3, e0, e1, e2, e3⟩ :=
        hwf.nextChain m x hold hbr
      obtain ⟨x0, hx0, hcs0⟩ := subdivide_pres_bwd t node nd hn x.children c0 g0
      obtain ⟨x1, hx1, hcs1⟩ := subdivide_pres_bwd t node nd hn (x.children+1) c1 g1
      obtain ⟨x2, hx2, hcs2⟩ := subdivide_pres_bwd t node nd hn (x.children+2) c2 g2
      obtain ⟨x3, hx3, hcs3⟩ := subdivide_pres_bwd t node nd hn (x.children+3) c3 g3
      have hnxeq : ∀ a b : Node,
          ((∃ m0, m0 = node ∧ a = { nd with children := t.nodes.length } ∧ b = nd) ∨ a = b) →
          a.next = b.next := by
        rintro a b (⟨m0, _, ha, hb⟩ | hab)
        · rw [ha, hb]
        · rw [hab]
      refine ⟨x0, x1, x2, x3, hx0, hx1, hx2, hx3, ?_, ?_, ?_, ?_⟩
      · rw [hnxeq x0 c0 (by rcases hcs0 with ⟨h1, h2, h3⟩ | h1; exact Or.inl ⟨_, h1, h2, h3⟩; exact Or.inr h1)]
        exact e0
      · rw [hnxeq x1 c1 (by rcases hcs1 with ⟨h1, h2, h3⟩ | h1; exact Or.inl ⟨_, h1, h2, h3⟩; exact Or.inr h1)]
        exact e1
      · rw [hnxeq x2 c2 (by rcases hcs2 with ⟨h1, h2, h3⟩ | h1; exact Or.inl ⟨_, h1, h2, h3⟩; exact Or.inr h1)]
        exact e2
      · rw [hnxeq x3 c3 (by rcases hcs3 with ⟨h1, h2, h3⟩ | h1; exact Or.inl ⟨_, h1, h2, h3⟩; exact Or.inr h1)]
        exact e3
    · rw [hxeq] at hbr
      exact absurd rfl hbr
  case branchInParents =>
    intro m x hx hbr
    rw [hpar]
    rcases subdivide_pres_fwd t node nd hn m x hx with
      ⟨hm, _⟩ | ⟨_, _, hold⟩ | ⟨k, _, _, hxeq⟩
    · rw [hm]
      exact List.mem_append.mpr (Or.inr (List.mem_singleton.mpr rfl))
    · exact List.mem_append.mpr (Or.inl (hwf.branchInParents m x hold hbr))
    · rw [hxeq] at hbr
      exact absurd rfl hbr
  case parentsLt =>
    intro p hp
    rw [hpar] at hp
    rw [hlen]
    rcases List.mem_append.mp hp with hp1 | hp1
    · have := hwf.parentsLt p hp1
      omega
    · rw [List.mem_singleton.mp hp1]
      omega
  case okr =>
    have hrev : (t.subdivide node).2.parents.reverse = node :: t.parents.reverse := by
      rw [hpar]
      simp
    rw [hrev]
    refine ⟨hnotin, ⟨{ nd with children := t.nodes.length },
      subdivide_parent_at t node nd hn, by show t.nodes.length ≠ 0; omega,
      by show t.nodes.length + 3 < (t.subdivide node).2.nodes.length; omega, ?_⟩, ?_⟩
    · intro k hk hmem
      rcases List.mem_cons.mp hmem with heq | hmem'
      · show False
        have : t.nodes.length + k = node := heq
        omega
      · have : t.nodes.length + k ∈ t.parents := List.mem_reverse.mp hmem'
        have := hwf.parentsLt _ this
        omega
    · refine OkR_congr t.nodes (t.subdivide node).2.nodes t.parents.reverse
        (by rw [hlen]; omega) (fun p hp y hy => ?_) hwf.okr
      obtain ⟨x, hx, hcase⟩ := subdivide_pres_bwd t node nd hn p y hy
      rcases hcase with ⟨hpn, _, _⟩ | hxy
      · exact absurd (hpn ▸ hp) hnotin
      · exact ⟨x, hx, by rw [hxy]⟩

/-- The subdivision loop preserves the arena invariants whenever it
returns. -/
theorem splitLoop_WF : ∀ (fuel : Nat) (t : QT) (node : Nat) (nd : Node)
    (p : Vec2) (m : ℚ) (pidx : Nat) (pos : Vec2) (mass : ℚ) (bidx : Nat) (t' : QT),
    WF t → t.nodes[node]? = some nd → nd.children = 0 →
    QT.splitLoop fuel t node p m pidx pos mass bidx = some t' → WF t'
  | 0 => by
    intro t node nd p m pidx pos mass bidx t' _ _ _ h
    exact Option.noConfusion h
  | fuel+1 => by
    intro t node nd p m pidx pos mass bidx t' hwf hn hleaf h
    rw [QT.splitLoop, subdivide_parent_at t node nd hn] at h
    simp only at h
    have hwf1 := WF_subdivide t node nd hn hleaf hwf
    by_cases hq : nd.quad.find_quadrant p = nd.quad.find_quadrant pos
    · rw [if_pos hq, subdivide_fst t node nd hn] at h
      have hq1lt := Quad.find_quadrant_lt nd.quad p
      have hch := subdivide_child t node nd hn (nd.quad.find_quadrant p) hq1lt
      exact splitLoop_WF fuel (t.subdivide node).2
        (t.nodes.length + nd.quad.find_quadrant p) _ p m pidx pos mass bidx t'
        hwf1 hch rfl h
    · rw [if_neg hq] at h
      have ht' := (Option.some.injEq _ _ ▸ h)
      rw [← ht']
      exact WF_writeBody _ _ _ _ _ (WF_writeBody _ _ _ _ _ hwf1)

/-- insert preserves the arena invariants whenever it returns. -/
theorem insertGo_WF : ∀ (fuel : Nat) (t : QT) (pos : Vec2) (mass : ℚ)
    (bidx node : Nat) (t' : QT),
    WF t → QT.insertGo fuel t pos mass bidx node = some t' → WF t'
  | 0 => by
    intro t pos mass bidx node t' _ h
    exact Option.noConfusion h
  | fuel+1 => by
    intro t pos mass bidx node t' hwf h
    rw [QT.insertGo] at h
    cases hn : t.nodes[node]? with
    | none => rw [hn] at h; exact Option.noConfusion h
    | some nd =>
      rw [hn] at h
      simp only at h
      by_cases hbr : nd.children ≠ 0
      · rw [if_pos hbr] at h
        exact insertGo_WF fuel t pos mass bidx _ t' hwf h
      · rw [if_neg hbr] at h
        by_cases hm : nd.mass = 0
        · rw [if_pos hm] at h
          have ht' := (Option.some.injEq _ _ ▸ h)
          rw [← ht']
          exact WF_writeBody _ _ _ _ _ hwf
        · rw [if_neg hm] at h
          by_cases hp : pos = nd.pos
          · rw [if_pos hp] at h
            have ht' := (Option.some.injEq _ _ ▸ h)
            rw [← ht']
            exact WF_set t node nd _ hn rfl rfl hwf
          · rw [if_neg hp] at h
            exact splitLoop_WF fuel t node nd nd.pos nd.mass nd.body_index pos
              mass bidx t' hwf hn (not_ne_iff.mp hbr) h

/-- clear establishes the arena invariants. -/
theorem WF_clear (t : QT) (quad : Quad) : WF (t.clear quad) := by
  constructor
  case nonempty => simp [QT.clear]
  case rootNext =>
    intro nd h
    have : Node.new 0 quad = nd := Option.some.injEq _ _ ▸ h
    rw [← this]
    rfl
  case branchBounds =>
    intro n nd h hbr
    cases n with
    | zero =>
      have : Node.new 0 quad = nd := Option.some.injEq _ _ ▸ h
      rw [← this] at hbr
      exact absurd rfl hbr
    | succ k =>
      rw [show (t.clear quad).nodes[k+1]? = none by simp [QT.clear]] at h
      exact Option.noConfusion h
  case nextChain =>
    intro n nd h hbr
    cases n with
    | zero =>
      have : Node.new 0 quad = nd := Option.some.injEq _ _ ▸ h
      rw [← this] at hbr
      exact absurd rfl hbr
    | succ k =>
      rw [show (t.clear quad).nodes[k+1]? = none by simp [QT.clear]] at h
      exact Option.noConfusion h
  case branchInParents =>
    intro n nd h hbr
    cases n with
    | zero =>
      have : Node.new 0 quad = nd := Option.some.injEq _ _ ▸ h
      rw [← this] at hbr
      exact absurd rfl hbr
    | succ k =>
      rw [show (t.clear quad).nodes[k+1]? = none by simp [QT.clear]] at h
      exact Option.noConfusion h
  case parentsLt =>
    intro p hp
    exact absurd hp (List.not_mem_nil p)
  case okr => trivial

/-- Every reachable tree satisfies the arena invariants. -/
theorem reachable_WF (t : QT) (h : Reachable t) : WF t := by
  induction h with
  | clear theta epsilon quad => exact WF_clear _ quad
  | insert t t' fuel pos mass bidx _ heq ih =>
    rw [QT.insert] at heq
    exact insertGo_WF fuel t pos mass bidx 0 t' ih heq

/-- C4: in every tree built by clear followed by inserts, node 0 is the
root with next 0, and every branch node has its four children at the
contiguous indices children..children+3, all inside the arena, with next
pointers chaining child0 to child1 to child2 to child3 to the parent's
next. -/
theorem c4_arena_invariant (t : QT) (h : Reachable t) :
    (∃ root : Node, t.nodes[0]? = some root ∧ root.next = 0) ∧
    (∀ (n : Nat) (nd : Node), t.nodes[n]? = some nd → nd.children ≠ 0 →
      nd.children + 3 < t.nodes.length ∧
      ∃ c0 c1 c2 c3 : Node,
        t.nodes[nd.children]? = some c0 ∧ t.nodes[nd.children+1]? = some c1 ∧
        t.nodes[nd.children+2]? = some c2 ∧ t.nodes[nd.children+3]? = some c3 ∧
        c0.next = nd.children+1 ∧ c1.next = nd.children+2 ∧
        c2.next = nd.children+3 ∧ c3.next = nd.next) := by
  have hwf := reachable_WF t h
  constructor
  · have hlt : 0 < t.nodes.length := List.length_pos.mpr hwf.nonempty
    refine ⟨t.nodes[0], List.getElem?_eq_getElem hlt, ?_⟩
    exact hwf.rootNext _ (List.getElem?_eq_getElem hlt)
  · intro n nd hget hbr
    exact ⟨(hwf.branchBounds n nd hget hbr).2, hwf.nextChain n nd hget hbr⟩

theorem t1tree_step : QT.insert 1 ((QT.new 1 1).clear ⟨⟨0,0⟩, 4⟩) ⟨1,1⟩ 1 0
    = some t1tree := by
  norm_num [QT.insert, QT.insertGo, QT.clear, QT.new, Node.new, QT.writeBody,
    t1tree, U32MAX]

theorem t5_step : QT.insert 2 t1tree ⟨-1,-1⟩ 4 1 = some t5 := by
  norm_num [QT.insert, QT.insertGo, QT.splitLoop, QT.subdivide, QT.writeBody,
    Quad.find_quadrant, Quad.into_quadrant, Node.new, U32MAX, t1tree, t5,
    Vec2.mk.injEq, List.set]

theorem t5_reachable : Reachable t5 :=
  Reachable.insert t1tree t5 2 ⟨-1,-1⟩ 4 1
    (Reachable.insert _ t1tree 1 ⟨1,1⟩ 1 0
      (Reachable.clear 1 1 ⟨⟨0,0⟩, 4⟩) t1tree_step)
    t5_step

/-- C4 witness: the invariant instantiated on the concrete two-body tree. -/
theorem c4_witness :
    (∃ root : Node, t5.nodes[0]? = some root ∧ root.next = 0) ∧
    (∀ (n : Nat) (nd : Node), t5.nodes[n]? = some nd → nd.children ≠ 0 →
      nd.children + 3 < t5.nodes.length ∧
      ∃ c0 c1 c2 c3 : Node,
        t5.nodes[nd.children]? = some c0 ∧ t5.nodes[nd.children+1]? = some c1 ∧
        t5.nodes[nd.children+2]? = some c2 ∧ t5.nodes[nd.children+3]? = some c3 ∧
        c0.next = nd.children+1 ∧ c1.next = nd.children+2 ∧
        c2.next = nd.children+3 ∧ c3.next = nd.next) :=
  c4_arena_invariant t5 t5_reachable

/-! ### Bottom-up propagation (C1) -/

theorem propStep_len (ns : List Node) (p : Nat) :
    (QT.propagateStep ns p).length = ns.length := by
  unfold QT.propagateStep
  split
  · rfl
  · split
    · exact List.length_set _ _ _
    · rfl

theorem propStep_untouched (ns : List Node) (p m : Nat) (h : m ≠ p) :
    (QT.propagateStep ns p)[m]? = ns[m]? := by
  unfold QT.propagateStep
  split
  · rfl
  · split
    · rw [getq_set_cases, if_neg (fun hc => h hc.1.symm)]
    · rfl

theorem propStep_children (ns : List Node) (p m : Nat) (x : Node)
    (hx : (QT.propagateStep ns p)[m]? = some x) :
    ∃ y : Node, ns[m]? = some y ∧ x.children = y.children := by
  by_cases h : m = p
  · subst h
    unfold QT.propagateStep at hx
    split at hx
    · exact ⟨x, hx, rfl⟩
    · rename_i nd hnd
      split at hx
      · rename_i c0 c1 c2 c3 h0 h1 h2 h3
        rw [getq_set_cases] at hx
        split at hx
        · have hxe := (Option.some.injEq _ _ ▸ hx)
          exact ⟨nd, hnd, by rw [← hxe]⟩
        · exact ⟨x, hx, rfl⟩
      · exact ⟨x, hx, rfl⟩
  · rw [propStep_untouched ns p m h] at hx
    exact ⟨x, hx, rfl⟩

/-- Effect of one propagate step at the processed node, when its four
children exist. -/
theorem propStep_at (ns : List Node) (p : Nat) (nd c0 c1 c2 c3 : Node)
    (hp : ns[p]? = some nd)
    (h0 : ns[nd.children]? = some c0) (h1 : ns[nd.children+1]? = some c1)
    (h2 : ns[nd.children+2]? = some c2) (h3 : ns[nd.children+3]? = some c3) :
    (QT.propagateStep ns p)[p]? = some { nd with
      pos := if 0 < c0.mass + c1.mass + c2.mass + c3.mass then
          (c0.pos.mulQ c0.mass + c1.pos.mulQ c1.mass + c2.pos.mulQ c2.mass
            + c3.pos.mulQ c3.mass).sdiv (c0.mass + c1.mass + c2.mass + c3.mass)
        else c0.pos.mulQ c0.mass + c1.pos.mulQ c1.mass + c2.pos.mulQ c2.mass
          + c3.pos.mulQ c3.mass,
      mass := c0.mass + c1.mass + c2.mass + c3.mass } := by
  unfold QT.propagateStep
  rw [hp]
  simp only
  rw [h0, h1, h2, h3]
  simp only
  rw [getq_set_cases, if_pos ⟨rfl, node_lt_of_getq hp⟩]

theorem foldl_children (ns : List Node) :
    ∀ (R : List Nat) (m : Nat) (x : Node),
      (R.foldl QT.propagateStep ns)[m]? = some x →
      ∃ y : Node, ns[m]? = some y ∧ x.children = y.children
  | [], m, x => fun hx => ⟨x, hx, rfl⟩
  | p :: rest, m, x => by
    intro hx
    obtain ⟨z, hz, hzc⟩ := foldl_children (QT.propagateStep ns p) rest m x hx
    obtain ⟨y, hy, hyc⟩ := propStep_children ns p m z hz
    exact ⟨y, hy, by rw [hzc, hyc]⟩

/-- Invariant of the propagate fold: outside the processed list nothing
changes, and every processed node ends with its mass the sum of its four
children's final masses and its position the corresponding (possibly
divided) weighted sum. -/
theorem foldProp (ns0 : List Node) :
    ∀ (R : List Nat) (ns : List Node), OkR ns R →
    (∀ q, q ∉ R → (R.foldl QT.propagateStep ns)[q]? = ns[q]?) ∧
    (∀ p ∈ R, ∃ (nd c0 c1 c2 c3 : Node),
      (R.foldl QT.propagateStep ns)[p]? = some nd ∧
      (R.foldl QT.propagateStep ns)[nd.children]? = some c0 ∧
      (R.foldl QT.propagateStep ns)[nd.children+1]? = some c1 ∧
      (R.foldl QT.propagateStep ns)[nd.children+2]? = some c2 ∧
      (R.foldl QT.propagateStep ns)[nd.children+3]? = some c3 ∧
      nd.mass = c0.mass + c1.mass + c2.mass + c3.mass ∧
      (0 < nd.mass → nd.pos = (c0.pos.mulQ c0.mass + c1.pos.mulQ c1.mass
        + c2.pos.mulQ c2.mass + c3.pos.mulQ c3.mass).sdiv nd.mass) ∧
      (¬ 0 < nd.mass → nd.pos = c0.pos.mulQ c0.mass + c1.pos.mulQ c1.mass
        + c2.pos.mulQ c2.mass + c3.pos.mulQ c3.mass))
  | [], ns => by
    intro _
    exact ⟨fun q _ => rfl, fun p hp => absurd hp (List.not_mem_nil p)⟩
  | p :: rest, ns => by
    intro hok
    obtain ⟨hpnotin, ⟨nd0, hnd0, hch0, hb0, hkn⟩, hrest⟩ := hok
    have hlen : ns.length ≤ (QT.propagateStep ns p).length := by
      rw [propStep_len]
    have hok' : OkR (QT.propagateStep ns p) rest := by
      refine OkR_congr ns (QT.propagateStep ns p) rest hlen (fun q hq y hy => ?_) hrest
      have hqp : q ≠ p := fun hc => hpnotin (hc ▸ hq)
      exact ⟨y, by rw [propStep_untouched ns p q hqp]; exact hy, rfl⟩
    obtain ⟨ihA, ihB⟩ := foldProp ns0 rest (QT.propagateStep ns p) hok'
    have hc0 : ∃ c0, ns[nd0.children]? = some c0 :=
      ⟨_, List.getElem?_eq_getElem (by omega)⟩
    obtain ⟨c0, hg0⟩ := hc0
    have hc1 : ∃ c1, ns[nd0.children+1]? = some c1 :=
      ⟨_, List.getElem?_eq_getElem (by omega)⟩
    obtain ⟨c1, hg1⟩ := hc1
    have hc2 : ∃ c2, ns[nd0.children+2]? = some c2 :=
      ⟨_, List.getElem?_eq_getElem (by omega)⟩
    obtain ⟨c2, hg2⟩ := hc2
    have hc3 : ∃ c3, ns[nd0.children+3]? = some c3 :=
      ⟨_, List.getElem?_eq_getElem (by omega)⟩
    obtain ⟨c3, hg3⟩ := hc3
    have hstep := propStep_at ns p nd0 c0 c1 c2 c3 hnd0 hg0 hg1 hg2 hg3
    have hkn' : ∀ k, k < 4 → nd0.children + k ∉ rest ∧ nd0.children + k ≠ p := by
      intro k hk
      have := hkn k hk
      exact ⟨fun hc => this (List.mem_cons_of_mem p hc),
        fun hc => this (hc ▸ List.mem_cons_self p rest)⟩
    constructor
    · intro q hq
      have hq1 : q ∉ rest := fun hc => hq (List.mem_cons_of_mem p hc)
      have hq2 : q ≠ p := fun hc => hq (hc ▸ List.mem_cons_self p rest)
      show (rest.foldl QT.propagateStep (QT.propagateStep ns p))[q]? = ns[q]?
      rw [ihA q hq1, propStep_untouched ns p q hq2]
    · intro m hm
      rcases List.mem_cons.mp hm with rfl | hm'
      · refine ⟨{ nd0 with
            pos := if 0 < c0.mass + c1.mass + c2.mass + c3.mass then
                (c0.pos.mulQ c0.mass + c1.pos.mulQ c1.mass + c2.pos.mulQ c2.mass
                  + c3.pos.mulQ c3.mass).sdiv (c0.mass + c1.mass + c2.mass + c3.mass)
              else c0.pos.mulQ c0.mass + c1.pos.mulQ c1.mass + c2.pos.mulQ c2.mass
                + c3.pos.mulQ c3.mass,
            mass := c0.mass + c1.mass + c2.mass + c3.mass },
          c0, c1, c2, c3, ?_, ?_, ?_, ?_, ?_, rfl, ?_, ?_⟩
        · show (rest.foldl QT.propagateStep (QT.propagateStep ns m))[m]? = _
          rw [ihA m hpnotin]
          exact hstep
        · show (rest.foldl QT.propagateStep (QT.propagateStep ns m))[nd0.children]? = _
          have hk0 := hkn' 0 (by omega)
          rw [Nat.add_zero] at hk0
          rw [ihA _ hk0.1, propStep_untouched ns m _ hk0.2]
          exact hg0
        · show (rest.foldl QT.propagateStep (QT.propagateStep ns m))[nd0.children+1]? = _
          rw [ihA _ (hkn' 1 (by omega)).1,
            propStep_untouched ns m _ (hkn' 1 (by omega)).2]
          exact hg1
        · show (rest.foldl QT.propagateStep (QT.propagateStep ns m))[nd0.children+2]? = _
          rw [ihA _ (hkn' 2 (by omega)).1,
            propStep_untouched ns m _ (hkn' 2 (by omega)).2]
          exact hg2
        · show (rest.foldl QT.propagateStep (QT.propagateStep ns m))[nd0.children+3]? = _
          rw [ihA _ (hkn' 3 (by omega)).1,
            propStep_untouched ns m _ (hkn' 3 (by omega)).2]
          exact hg3
        · intro hpos
          show (if 0 < c0.mass + c1.mass + c2.mass + c3.mass then _ else _) = _
          rw [if_pos hpos]
        · intro hpos
          show (if 0 < c0.mass + c1.mass + c2.mass + c3.mass then _ else _) = _
          rw [if_neg hpos]
      · exact ihB m hm'

/-- C1: after propagate on any tree built by clear and inserts, every
internal node's mass is the sum of its four children's masses; when that
sum is positive its position is the mass-weighted centroid (weighted sum
divided by the total), and when the sum is zero the division is skipped
and the position is the undivided weighted sum, so no division by zero
occurs. -/
theorem c1_propagate_centroid (t : QT) (h : Reachable t) :
    ∀ (n : Nat) (nd : Node), (QT.propagate t).nodes[n]? = some nd →
      nd.children ≠ 0 →
      ∃ c0 c1 c2 c3 : Node,
        (QT.propagate t).nodes[nd.children]? = some c0 ∧
        (QT.propagate t).nodes[nd.children+1]? = some c1 ∧
        (QT.propagate t).nodes[nd.children+2]? = some c2 ∧
        (QT.propagate t).nodes[nd.children+3]? = some c3 ∧
        nd.mass = c0.mass + c1.mass + c2.mass + c3.mass ∧
        (0 < nd.mass → nd.pos = (c0.pos.mulQ c0.mass + c1.pos.mulQ c1.mass
          + c2.pos.mulQ c2.mass + c3.pos.mulQ c3.mass).sdiv nd.mass) ∧
        (nd.mass = 0 → nd.pos = c0.pos.mulQ c0.mass + c1.pos.mulQ c1.mass
          + c2.pos.mulQ c2.mass + c3.pos.mulQ c3.mass) := by
  intro n nd hget hbr
  have hwf := reachable_WF t h
  have hF : (QT.propagate t).nodes = t.parents.reverse.foldl QT.propagateStep t.nodes :=
    rfl
  rw [hF] at hget
  obtain ⟨y, hy, hyc⟩ := foldl_children t.nodes t.parents.reverse n nd hget
  have hmem : n ∈ t.parents.reverse :=
    List.mem_reverse.mpr (hwf.branchInParents n y hy (by rw [← hyc]; exact hbr))
  obtain ⟨ihA, ihB⟩ := foldProp t.nodes t.parents.reverse t.nodes hwf.okr
  obtain ⟨nd', c0, c1, c2, c3, hnd', k0, k1, k2, k3, hmass, hposp, hposn⟩ :=
    ihB n hmem
  rw [hget] at hnd'
  have hnd2 : nd = nd' := Option.some.injEq _ _ ▸ hnd'
  rw [← hnd2] at k0 k1 k2 k3 hmass hposp hposn
  refine ⟨c0, c1, c2, c3, by rw [hF]; exact k0, by rw [hF]; exact k1,
    by rw [hF]; exact k2, by rw [hF]; exact k3, hmass, hposp, ?_⟩
  intro h0
  exact hposn (by rw [h0]; exact lt_irrefl 0)

theorem propagate_t5_root : (QT.propagate t5).nodes[0]? = some rootP := by
  norm_num [QT.propagate, QT.propagateStep, t5, rootP, Node.new, U32MAX,
    Vec2.add_def, Vec2.mulQ, Vec2.sdiv, Vec2.zero_def, List.set]

/-- C1 witness: the centroid identity instantiated at the root of the
concrete two-body tree after propagation. -/
theorem c1_witness :
    ∃ c0 c1 c2 c3 : Node,
      (QT.propagate t5).nodes[1]? = some c0 ∧
      (QT.propagate t5).nodes[2]? = some c1 ∧
      (QT.propagate t5).nodes[3]? = some c2 ∧
      (QT.propagate t5).nodes[4]? = some c3 ∧
      rootP.mass = c0.mass + c1.mass + c2.mass + c3.mass ∧
      (0 < rootP.mass → rootP.pos = (c0.pos.mulQ c0.mass + c1.pos.mulQ c1.mass
        + c2.pos.mulQ c2.mass + c3.pos.mulQ c3.mass).sdiv rootP.mass) ∧
      (rootP.mass = 0 → rootP.pos = c0.pos.mulQ c0.mass + c1.pos.mulQ c1.mass
        + c2.pos.mulQ c2.mass + c3.pos.mulQ c3.mass) :=
  c1_propagate_centroid t5 t5_reachable 0 rootP propagate_t5_root (by norm_num [rootP])

end NB
